import Mathlib

/-!
Verification of the `rs-lists` repository: a singly-linked stack in two
variants, `first.rs` (elements fixed to 32-bit signed integers, no
iterators) and `second.rs` (generic elements, `peek`/`peek_mut` and three
iterator flavours).

The Rust code is shallowly embedded: `Box<Node<T>>` is a plain `Node T`
value (a `Box` is just an owning pointer, transparent to the functional
behaviour), `Option<Box<Node<T>>>` is `Option (Node T)`, and every `&mut
self` method becomes a pure function returning the updated value.  A
shared reference `&T` handed out by `peek`/`iter` is modelled by the value
it points to; the mutable references of `peek_mut`/`iter_mut` are modelled
by their write-through semantics (an explicit function that performs the
write the caller would do through the reference).
-/

/-- Alias for Lean's builtin list type, usable inside the `Second`
namespace where the name `List` refers to the embedded Rust `List<T>`. -/
abbrev Elems (T : Type) : Type := List T

namespace Second

/-- `struct Node<T> { elem: T, next: Link<T> }` from `second.rs`, with
`type Link<T> = Option<Box<Node<T>>>` inlined as `Option (Node T)`. -/
inductive Node (T : Type) : Type where
  | mk (elem : T) (next : Option (Node T)) : Node T


/-- `type Link<T> = Option<Box<Node<T>>>` (`Box` is transparent). -/
abbrev Link (T : Type) : Type := Option (Node T)

/-- Field accessor `node.elem`. -/
def Node.elem {T : Type} : Node T → T
  | .mk e _ => e

/-- Field accessor `node.next`. -/
def Node.next {T : Type} : Node T → Link T
  | .mk _ n => n

/-- `pub struct List<T> { head: Link<T> }` from `second.rs`. -/
structure List (T : Type) : Type where
  head : Link T


/-- The abstract contents of a chain, head to tail.  This is the
abstraction function used to state the specifications; it is not part of
the Rust source. -/
def Node.toList {T : Type} : Node T → Elems T
  | .mk e none => [e]
  | .mk e (some n) => e :: n.toList

/-- Contents of a `Link`, head to tail. -/
def Link.toList {T : Type} : Link T → Elems T
  | none => []
  | some n => n.toList

/-- Contents of a `List`, head to tail. -/
def List.toList {T : Type} (l : List T) : Elems T :=
  l.head.toList

/-- `List::new`: `List { head: None }`. -/
def List.new (T : Type) : List T :=
  { head := none }

/-- `List::push`: `self.head.take()` removes the current head (leaving
`None`), the new node owns it as its `next`, and the new node is installed
as the head. -/
def List.push {T : Type} (l : List T) (elem : T) : List T :=
  let taken := l.head          -- let new_node = Box::new(Node { elem, next: self.head.take() })
  let new_node : Node T := .mk elem taken
  { head := some new_node }    -- self.head = Some(new_node)

/-- `List::pop`: `self.head.take().map(|node| { self.head = node.next; node.elem })`.
Returns the popped element (if any) together with the updated list; when
the list is empty `take` leaves `head = None` and `map` does nothing. -/
def List.pop {T : Type} (l : List T) : Option T × List T :=
  match l.head with
  | none => (none, { head := none })
  | some node => (some node.elem, { head := node.next })

/-- `List::peek`: `self.head.as_ref().map(|node| &node.elem)`.  The shared
reference is modelled by the value it points to. -/
def List.peek {T : Type} (l : List T) : Option T :=
  l.head.map Node.elem

/-- `List::peek_mut`: `self.head.as_mut().map(|node| &mut node.elem)`.
The value visible through the returned mutable reference. -/
def List.peekMut {T : Type} (l : List T) : Option T :=
  l.head.map Node.elem

/-- The write-through semantics of the `&mut T` returned by `peek_mut`:
assigning `v` through that reference overwrites the head node's `elem`
field in place.  When the list is empty `peek_mut` returns `None`, there
is no reference, and no write happens. -/
def List.peekMutWrite {T : Type} (l : List T) (v : T) : List T :=
  match l.head with
  | none => l
  | some (.mk _ next) => { head := some (.mk v next) }

/-- `pub struct IntoIter<T>(List<T>)`: a tuple struct wrapping the stack
by value; the field is the tuple slot `.0`. -/
structure IntoIter (T : Type) : Type where
  inner : List T

/-- `Iterator::next` for `IntoIter`: `self.0.pop()`.  Returns the yielded
item together with the updated iterator (the wrapped stack after the
pop). -/
def IntoIter.next {T : Type} (it : IntoIter T) : Option T × IntoIter T :=
  match it.inner.pop with
  | (r, l) => (r, { inner := l })

/-- `List::into_iter`: `IntoIter(self)` — consumes the stack. -/
def List.intoIter {T : Type} (l : List T) : IntoIter T :=
  { inner := l }

/-- `pub struct Iter<'a, T> { next: Option<&'a Node<T>> }`.  The shared
reference to a node is modelled by the node value it points to; the
struct field `next` is named `nextNode` here because `next` is taken by
the iterator method of the same name. -/
structure Iter (T : Type) : Type where
  nextNode : Option (Node T)

/-- `Iterator::next` for `Iter`:
`self.next.map(|node| { self.next = node.next.as_ref()...; &node.elem })`.
When the cursor is `None`, `map` does nothing and the cursor stays
`None`; otherwise the cursor advances to the current node's `next` and
the current element is yielded. -/
def Iter.next {T : Type} (it : Iter T) : Option T × Iter T :=
  match it.nextNode with
  | none => (none, it)
  | some node => (some node.elem, { nextNode := node.next })

/-- `List::iter`: `Iter { next: self.head.as_ref().map(|node| &**node) }`. -/
def List.iter {T : Type} (l : List T) : Iter T :=
  { nextNode := l.head }

/-- `pub struct IterMut<'a, T> { next: Option<&'a mut Node<T>> }`.  As for
`Iter`, the referenced node is modelled by its value; the write-through
behaviour of the mutable references is modelled separately by
`iterMutSession`. -/
structure IterMut (T : Type) : Type where
  nextNode : Option (Node T)

/-- `Iterator::next` for `IterMut`:
`self.next.take().map(|node| { self.next = node.next.as_mut()...; &mut node.elem })`.
`take` removes the stored cursor (leaving `None`) before the advanced
cursor is installed, so the iterator never holds the old and the new
mutable reference at once. -/
def IterMut.next {T : Type} (it : IterMut T) : Option T × IterMut T :=
  match it.nextNode with
  | none => (none, { nextNode := none })
  | some node => (some node.elem, { nextNode := node.next })

/-- `List::iter_mut`: `IterMut { next: self.head.as_mut().map(|node| &mut **node) }`. -/
def List.iterMut {T : Type} (l : List T) : IterMut T :=
  { nextNode := l.head }

/-- Iterating `IntoIter.next` `n` times. -/
def IntoIter.stepN {T : Type} (it : IntoIter T) : Nat → IntoIter T
  | 0 => it
  | n + 1 => (it.next.2).stepN n

/-- The result of the `(n+1)`-st call of `next` on an `IntoIter` (0-indexed:
`outN it 0` is the first call's result). -/
def IntoIter.outN {T : Type} (it : IntoIter T) (n : Nat) : Option T :=
  ((it.stepN n).next).1

/-- Iterating `Iter.next` `n` times. -/
def Iter.stepN {T : Type} (it : Iter T) : Nat → Iter T
  | 0 => it
  | n + 1 => (it.next.2).stepN n

/-- The result of the `(n+1)`-st call of `next` on an `Iter`. -/
def Iter.outN {T : Type} (it : Iter T) (n : Nat) : Option T :=
  ((it.stepN n).next).1

/-- Iterating `IterMut.next` `n` times. -/
def IterMut.stepN {T : Type} (it : IterMut T) : Nat → IterMut T
  | 0 => it
  | n + 1 => (it.next.2).stepN n

/-- The result of the `(n+1)`-st call of `next` on an `IterMut`. -/
def IterMut.outN {T : Type} (it : IterMut T) (n : Nat) : Option T :=
  ((it.stepN n).next).1

/-- The first `n` results of driving an `IntoIter` via its own `next`. -/
def IntoIter.drain {T : Type} (it : IntoIter T) : Nat → Elems (Option T)
  | 0 => []
  | n + 1 =>
    match it.next with
    | (r, it') => r :: it'.drain n

/-- The first `n` results of driving an `Iter` via its own `next`. -/
def Iter.drain {T : Type} (it : Iter T) : Nat → Elems (Option T)
  | 0 => []
  | n + 1 =>
    match it.next with
    | (r, it') => r :: it'.drain n

/-- The first `n` results of driving an `IterMut` via its own `next`. -/
def IterMut.drain {T : Type} (it : IterMut T) : Nat → Elems (Option T)
  | 0 => []
  | n + 1 =>
    match it.next with
    | (r, it') => r :: it'.drain n

/-- One iteration of the `Drop` loop in `second.rs`:
`while let Some(mut boxed_node) = cur_link { cur_link = boxed_node.next.take(); }`.
Given the current value of `cur_link`, produce its value after one
iteration (`None` stays `None`: the loop has exited). -/
def dropStep {T : Type} : Link T → Link T
  | none => none
  | some (.mk _ nx) => nx

/-- The nodes freed by the `Drop` loop of `second.rs`, in the order the
loop frees them.  Each iteration binds `boxed_node`, takes its `next`
field (leaving `None` in it) and lets the node go out of scope, so the
node is freed with `next = None`. -/
def dropTrace {T : Type} : Link T → Elems (Node T)
  | none => []
  | some (.mk e nx) => .mk e none :: dropTrace nx

/-- Call depth of the automatic (recursive) destructor of a `Box<Node<T>>`:
freeing a node first frees its `next` chain, one nested call per node.
This is the teardown the explicit `Drop` impl replaces. -/
def Node.dropDepth {T : Type} : Node T → Nat
  | .mk _ none => 1
  | .mk _ (some n) => n.dropDepth + 1

/-- Call depth of automatic teardown starting from a link: `0` for an
absent link, the chain's node count otherwise. -/
def Link.naiveDropDepth {T : Type} : Link T → Nat
  | none => 0
  | some n => n.dropDepth

/-- The sequence of results of `n` successive `pop()` calls on a stack. -/
def List.popSeq {T : Type} (l : List T) : Nat → Elems (Option T)
  | 0 => []
  | n + 1 =>
    match l.pop with
    | (r, l') => r :: l'.popSeq n

/-- The owner's state during a borrowing-iteration session: the stack
variable the iterator borrowed (`iter(&self)`), and the iterator's
cursor.  `Iter::next` receives `&mut self` where `self` is only the
cursor, so the stack variable is outside its write set. -/
structure IterFrame (T : Type) : Type where
  stack : List T
  cursor : Option (Node T)

/-- `List::iter` as seen from the owner: the stack is lent (unchanged)
and the cursor is initialised from its head. -/
def List.iterFrame {T : Type} (l : List T) : IterFrame T :=
  { stack := l, cursor := l.head }

/-- `Iter::next` as seen from the owner: the body
`self.next.map(|node| { self.next = ...; &node.elem })` reads and writes
the cursor only. -/
def IterFrame.next {T : Type} (s : IterFrame T) : Option T × IterFrame T :=
  match s.cursor with
  | none => (none, s)
  | some node => (some node.elem, { s with cursor := node.next })

/-- Iterating `IterFrame.next` `n` times. -/
def IterFrame.stepN {T : Type} (s : IterFrame T) : Nat → IterFrame T
  | 0 => s
  | n + 1 => (s.next.2).stepN n

/-- A complete mutable-iteration session over the chain suffix the
`IterMut` cursor points to.  The cursor is an exclusive reference to the
first unvisited node; each `next()` takes it, yields `&mut node.elem`,
and stores a reference to the node's `next` target.  `ws` lists, for each
`next()` call the caller makes, the value written through the yielded
reference (`none` = the caller does not write).  Returns the values read
through the yielded references (the elements as they were when yielded,
`none` once the iterator is exhausted) and the chain as the owner sees it
after the borrow ends: each visited node's `elem` holds the written value
if one was written, and the links are untouched. -/
def iterMutSession {T : Type} : Link T → Elems (Option T) → Elems (Option T) × Link T
  | lk, [] => ([], lk)
  | none, _ :: ws =>
    match iterMutSession (none : Link T) ws with
    | (ys, rest) => (none :: ys, rest)
  | some (.mk e nx), w :: ws =>
    match iterMutSession nx ws with
    | (ys, rest) => (some e :: ys, some (.mk (w.getD e) rest))

/-- Pointwise overwrite of a sequence of elements by a sequence of
optional writes (`none` = keep).  Abstract counterpart of a mutable
iteration session's effect on the stack contents. -/
def overwrite {T : Type} : Elems T → Elems (Option T) → Elems T
  | s, [] => s
  | [], _ :: _ => []
  | e :: s, w :: ws => w.getD e :: overwrite s ws

/-- A push or pop request against the stack API. -/
inductive Op (T : Type) : Type where
  | push (x : T) : Op T
  | pop : Op T

/-- Run a sequence of push/pop requests against a `second.rs` stack,
collecting the result of every `pop`. -/
def List.run {T : Type} (l : List T) : Elems (Op T) → Elems (Option T) × List T
  | [] => ([], l)
  | .push x :: ops => (l.push x).run ops
  | .pop :: ops =>
    match l.pop with
    | (r, l') =>
      match l'.run ops with
      | (rs, l'') => (r :: rs, l'')

end Second

/-- The abstract LIFO stack, stated from the spec's words: the state is
the sequence of pushed-but-not-yet-popped elements with the most recent
first; `push` prepends; `pop` removes and returns the most recently
pushed element not yet popped, or `none` exactly when all pushed elements
have been popped (state empty).  Collects every pop result. -/
def stackModel {T : Type} : List T → List (Second.Op T) → List (Option T) × List T
  | s, [] => ([], s)
  | s, .push x :: ops => stackModel (x :: s) ops
  | s, .pop :: ops =>
    match stackModel s.tail ops with
    | (rs, s') => (s.head? :: rs, s')

namespace First

mutual

/-- `enum Link { Empty, More(Box<Node>) }` from `first.rs` (`Box` is
transparent). -/
inductive Link : Type where
  | Empty : Link
  | More (node : Node) : Link

/-- `struct Node { elem: i32, next: Link }` from `first.rs`.  The `i32`
element is modelled by `Int`: `push`/`pop` move elements without any
arithmetic, so any faithful representation of the value set works. -/
inductive Node : Type where
  | mk (elem : Int) (next : Link) : Node

end

/-- `pub struct List { head: Link }` from `first.rs`. -/
structure List : Type where
  head : Link

/-- Contents of a `first.rs` chain, head to tail. -/
def Link.toList : Link → Elems Int
  | .Empty => []
  | .More (.mk e nx) => e :: Link.toList nx

/-- Contents of a `first.rs` list, head to tail. -/
def List.toList (l : List) : Elems Int :=
  l.head.toList

/-- `List::new`: `List { head: Link::Empty }`. -/
def List.new : List :=
  { head := .Empty }

/-- `List::push`: `mem::replace(&mut self.head, Link::Empty)` reads the
current head while leaving `Empty` behind; the new node owns it as its
`next`, and `Link::More(new_node)` becomes the head. -/
def List.push (l : List) (elem : Int) : List :=
  let replaced := l.head
  let new_node : Node := .mk elem replaced
  { head := .More new_node }

/-- `List::pop`: `match mem::replace(&mut self.head, Link::Empty)`; on
`Empty` the result is `None` (head stays `Empty`), on `More(node)` the
head becomes `node.next` and `Some(node.elem)` is returned. -/
def List.pop (l : List) : Option Int × List :=
  match l.head with
  | .Empty => (none, { head := .Empty })
  | .More (.mk e nx) => (some e, { head := nx })

/-- One iteration of the `Drop` loop in `first.rs`:
`while let Link::More(mut boxed_node) = cur_link { cur_link = mem::replace(&mut boxed_node.next, Link::Empty); }`. -/
def dropStep : Link → Link
  | .Empty => .Empty
  | .More (.mk _ nx) => nx

/-- The nodes freed by the `Drop` loop of `first.rs`, in order; each is
freed with its `next` already replaced by `Empty`. -/
def dropTrace : Link → Elems Node
  | .Empty => []
  | .More (.mk e nx) => .mk e .Empty :: dropTrace nx

/-- Call depth of the automatic recursive teardown of a `first.rs` node:
one nested destructor call per remaining chain node. -/
def Node.dropDepth : Node → Nat
  | .mk _ .Empty => 1
  | .mk _ (.More n) => n.dropDepth + 1

/-- Field accessor `node.next` for `first.rs` nodes. -/
def Node.next : Node → Link
  | .mk _ nx => nx

/-- Call depth of automatic teardown starting from a `first.rs` link. -/
def Link.naiveDropDepth : Link → Nat
  | .Empty => 0
  | .More n => n.dropDepth

/-- Run a sequence of push/pop requests against a `first.rs` stack,
collecting the result of every `pop`. -/
def List.run (l : List) : Elems (Second.Op Int) → Elems (Option Int) × List
  | [] => ([], l)
  | .push x :: ops => (l.push x).run ops
  | .pop :: ops =>
    match l.pop with
    | (r, l') =>
      match l'.run ops with
      | (rs, l'') => (r :: rs, l'')

end First

namespace Second

-- Sanity checks on concrete inputs (mirroring the unit tests in `second.rs`).
example : ((List.new Int).push 1 |>.push 2 |>.push 3).toList = [3, 2, 1] := by rfl
example : ((List.new Int).push 1 |>.push 2 |>.push 3).pop =
    (some 3, (List.new Int).push 1 |>.push 2) := by rfl
example : (List.new Int).pop = (none, List.new Int) := by rfl
example : ((List.new Int).push 1 |>.push 2 |>.push 3).peek = some 3 := by rfl
example : (((List.new Int).push 1 |>.push 2 |>.push 3).peekMutWrite 42).peek = some 42 := by rfl

end Second

namespace Second

theorem Link.toList_some {T : Type} (e : T) (nx : Link T) :
    Link.toList (some (Node.mk e nx)) = e :: nx.toList := by
  cases nx <;> rfl

theorem List.toList_push {T : Type} (l : List T) (x : T) :
    (l.push x).toList = x :: l.toList := by
  simpa [List.push, List.toList] using Link.toList_some x l.head

theorem List.pop_fst {T : Type} (l : List T) : l.pop.1 = l.toList.head? := by
  obtain ⟨hd⟩ := l
  cases hd with
  | none => rfl
  | some nd =>
    obtain ⟨e, nx⟩ := nd
    simp [List.pop, List.toList, Link.toList_some, Node.elem]

theorem List.pop_snd_toList {T : Type} (l : List T) :
    l.pop.2.toList = l.toList.tail := by
  obtain ⟨hd⟩ := l
  cases hd with
  | none => rfl
  | some nd =>
    obtain ⟨e, nx⟩ := nd
    simp [List.pop, List.toList, Link.toList_some, Node.next]

theorem List.peek_eq {T : Type} (l : List T) : l.peek = l.toList.head? := by
  obtain ⟨hd⟩ := l
  cases hd with
  | none => rfl
  | some nd =>
    obtain ⟨e, nx⟩ := nd
    simp [List.peek, List.toList, Link.toList_some, Node.elem]

theorem run_eq_stackModel {T : Type} :
    ∀ (ops : Elems (Op T)) (l : List T),
      (l.run ops).1 = (stackModel l.toList ops).1 ∧
      (l.run ops).2.toList = (stackModel l.toList ops).2
  | [], l => ⟨rfl, rfl⟩
  | .push x :: ops, l => by
    have ih := run_eq_stackModel ops (l.push x)
    simpa [List.run, stackModel, List.toList_push] using ih
  | .pop :: ops, l => by
    have ih := run_eq_stackModel ops l.pop.2
    simp only [List.run, stackModel]
    rw [List.pop_fst l] at *
    constructor
    · simp [ih.1, List.pop_snd_toList]
    · simp [ih.2, List.pop_snd_toList]

end Second

/-- C3: on a freshly constructed (empty) stack, `pop()`, `peek()` and
`peek_mut()` all return `none`; the empty case is an ordinary `none`
value of the `Option` result type, not an error. -/
theorem empty_stack_contract (T : Type) :
    (Second.List.new T).pop = (none, Second.List.new T) ∧
    (Second.List.new T).peek = none ∧
    (Second.List.new T).peekMut = none :=
  ⟨rfl, rfl, rfl⟩

/-- C2: the list is a LIFO stack.  For every interleaved sequence of push
and pop requests starting from the empty stack, the pop results produced
by `second.rs` coincide with those of the abstract LIFO stack model, in
which each pop returns the most recently pushed element not yet popped
and returns `none` exactly when all pushed elements have been popped.  In
particular `push a, push b, push c` followed by four pops yields
`c, b, a, none` in that order. -/
theorem push_pop_lifo {T : Type} (ops : List (Second.Op T)) (a b c : T) :
    ((Second.List.new T).run ops).1 = (stackModel [] ops).1 ∧
    ((Second.List.new T).run
        [.push a, .push b, .push c, .pop, .pop, .pop, .pop]).1
      = [some c, some b, some a, none] :=
  ⟨(Second.run_eq_stackModel ops (Second.List.new T)).1, rfl⟩

namespace Second

theorem intoIter_outN_succ {T : Type} (it : IntoIter T) (n : Nat) :
    it.outN (n + 1) = (it.next.2).outN n := rfl

theorem iter_outN_succ {T : Type} (it : Iter T) (n : Nat) :
    it.outN (n + 1) = (it.next.2).outN n := rfl

theorem iterMut_outN_succ {T : Type} (it : IterMut T) (n : Nat) :
    it.outN (n + 1) = (it.next.2).outN n := rfl

theorem intoIter_outN {T : Type} :
    ∀ (n : Nat) (l : List T), (l.intoIter).outN n = l.toList[n]?
  | 0, l => by
    simpa [IntoIter.outN, IntoIter.stepN, IntoIter.next, List.intoIter,
      List.head?_eq_getElem?] using List.pop_fst l
  | n + 1, l => by
    obtain ⟨hd⟩ := l
    cases hd with
    | none =>
      have ih := intoIter_outN n (List.mk (T := T) none)
      simpa [intoIter_outN_succ, IntoIter.next, List.intoIter, List.pop,
        List.toList, Link.toList] using ih
    | some nd =>
      obtain ⟨e, nx⟩ := nd
      have ih := intoIter_outN n (List.mk nx)
      simpa [intoIter_outN_succ, IntoIter.next, List.intoIter, List.pop,
        List.toList, Link.toList_some, Node.next] using ih

theorem iter_outN {T : Type} :
    ∀ (n : Nat) (lk : Link T), (Iter.mk lk).outN n = lk.toList[n]?
  | 0, lk => by
    cases lk with
    | none => rfl
    | some nd =>
      obtain ⟨e, nx⟩ := nd
      simp [Iter.outN, Iter.stepN, Iter.next, Link.toList_some, Node.elem]
  | n + 1, lk => by
    cases lk with
    | none =>
      have ih := iter_outN n (none : Link T)
      simpa [iter_outN_succ, Iter.next, Link.toList] using ih
    | some nd =>
      obtain ⟨e, nx⟩ := nd
      have ih := iter_outN n nx
      simpa [iter_outN_succ, Iter.next, Link.toList_some, Node.next] using ih

theorem iterMut_outN {T : Type} :
    ∀ (n : Nat) (lk : Link T), (IterMut.mk lk).outN n = lk.toList[n]?
  | 0, lk => by
    cases lk with
    | none => rfl
    | some nd =>
      obtain ⟨e, nx⟩ := nd
      simp [IterMut.outN, IterMut.stepN, IterMut.next, Link.toList_some, Node.elem]
  | n + 1, lk => by
    cases lk with
    | none =>
      have ih := iterMut_outN n (none : Link T)
      simpa [iterMut_outN_succ, IterMut.next, Link.toList] using ih
    | some nd =>
      obtain ⟨e, nx⟩ := nd
      have ih := iterMut_outN n nx
      simpa [iterMut_outN_succ, IterMut.next, Link.toList_some, Node.next] using ih

theorem iterFrame_stepN_stack {T : Type} :
    ∀ (n : Nat) (s : IterFrame T), (s.stepN n).stack = s.stack
  | 0, s => rfl
  | n + 1, s => by
    have ih := iterFrame_stepN_stack n (s.next.2)
    simp only [IterFrame.stepN]
    rw [ih]
    cases hs : s.cursor <;> simp [IterFrame.next, hs]

theorem iterFrame_cursor_eq_iter {T : Type} :
    ∀ (n : Nat) (s : IterFrame T),
      (s.stepN n).cursor = ((Iter.mk s.cursor).stepN n).nextNode
  | 0, _ => rfl
  | n + 1, s => by
    have ih := iterFrame_cursor_eq_iter n (s.next.2)
    simp only [IterFrame.stepN, Iter.stepN]
    rw [ih]
    cases hs : s.cursor <;> simp [IterFrame.next, Iter.next, hs]

end Second

/-- C4: the owning iterator's `next()` is exactly `pop()` on the wrapped
stack, and for every stack `into_iter()` yields the stack's elements by
value in head-to-tail order — the `n`-th call returns the `n`-th element
of the contents, which is `some` for the first `len` calls and `none`
forever after. -/
theorem intoIter_is_pop {T : Type} (it : Second.IntoIter T) (l : Second.List T) (n : Nat) :
    it.next = (it.inner.pop.1, { inner := it.inner.pop.2 }) ∧
    (l.intoIter).outN n = l.toList[n]? ∧
    (l.toList[n]? = none ↔ l.toList.length ≤ n) :=
  ⟨rfl, Second.intoIter_outN n l, List.getElem?_eq_none_iff⟩

/-- C5: the borrowing iterator is non-destructive.  `iter()` yields the
stack's elements in head-to-tail order (the `n`-th `next()` result is the
`n`-th element of the contents), while the borrowed stack — threaded
through the session state — is unchanged by any number of `next()`
calls, so the subsequent `pop()` results are those of the original
stack. -/
theorem iter_non_destructive {T : Type} (l : Second.List T) (n m : Nat) :
    (l.iter).outN n = l.toList[n]? ∧
    ((l.iterFrame).stepN n).stack = l ∧
    (((l.iterFrame).stepN n).stack).popSeq m = l.popSeq m ∧
    ((l.iterFrame).stepN n).cursor = ((l.iter).stepN n).nextNode :=
  ⟨Second.iter_outN n l.head,
   Second.iterFrame_stepN_stack n l.iterFrame,
   by rw [Second.iterFrame_stepN_stack n l.iterFrame]; rfl,
   Second.iterFrame_cursor_eq_iter n l.iterFrame⟩

namespace Second

theorem overwrite_nil {T : Type} :
    ∀ ws : Elems (Option T), overwrite ([] : Elems T) ws = []
  | [] => rfl
  | _ :: _ => rfl

theorem iterMutSession_fst {T : Type} :
    ∀ (ws : Elems (Option T)) (lk : Link T),
      (iterMutSession lk ws).1 = (List.range ws.length).map fun i => lk.toList[i]?
  | [], lk => by simp [iterMutSession]
  | w :: ws, lk => by
    cases lk with
    | none =>
      have ih := iterMutSession_fst ws (none : Link T)
      simp [iterMutSession, ih, Link.toList, List.range_succ_eq_map, List.map_map,
        Function.comp_def, List.map_const', List.length_range]
    | some nd =>
      obtain ⟨e, nx⟩ := nd
      have ih := iterMutSession_fst ws nx
      simp [iterMutSession, ih, Link.toList_some, List.range_succ_eq_map,
        List.map_map, Function.comp_def]

theorem iterMutSession_snd_toList {T : Type} :
    ∀ (ws : Elems (Option T)) (lk : Link T),
      (iterMutSession lk ws).2.toList = overwrite lk.toList ws
  | [], lk => by simp [iterMutSession, overwrite]
  | w :: ws, lk => by
    cases lk with
    | none =>
      have ih := iterMutSession_snd_toList ws (none : Link T)
      simp only [iterMutSession]
      simpa [Link.toList, overwrite, overwrite_nil] using ih
    | some nd =>
      obtain ⟨e, nx⟩ := nd
      have ih := iterMutSession_snd_toList ws nx
      simp [iterMutSession, Link.toList_some, overwrite, ih]

theorem overwrite_nil_writes {T : Type} : ∀ s : Elems T, overwrite s [] = s := by
  intro s
  cases s <;> rfl

end Second

/-- C6: the mutable-borrowing iterator yields the stack's elements in
head-to-tail order (its cursor being taken on each `next()`, as the
`IterMut.next` embedding records), and a mutable-iteration session in
which the caller writes `ws i` through the `i`-th yielded reference
leaves the stack with its contents pointwise overwritten, so subsequent
`peek()`/`pop()` calls observe the written values. -/
theorem iterMut_write_through {T : Type} (l : Second.List T) (ws : List (Option T)) :
    (Second.iterMutSession l.head ws).1
      = (List.range ws.length).map (fun i => l.toList[i]?) ∧
    (Second.List.mk (Second.iterMutSession l.head ws).2).toList
      = Second.overwrite l.toList ws ∧
    (Second.List.mk (Second.iterMutSession l.head ws).2).peek
      = (Second.overwrite l.toList ws).head? ∧
    (Second.List.mk (Second.iterMutSession l.head ws).2).pop.1
      = (Second.overwrite l.toList ws).head? := by
  refine ⟨Second.iterMutSession_fst ws l.head, ?_, ?_, ?_⟩
  · exact Second.iterMutSession_snd_toList ws l.head
  · rw [Second.List.peek_eq]
    exact congrArg List.head? (Second.iterMutSession_snd_toList ws l.head)
  · rw [Second.List.pop_fst]
    exact congrArg List.head? (Second.iterMutSession_snd_toList ws l.head)

/-- C7: `peek()` returns the head element without mutating the stack (it
is a read of the contents' head, returning no modified stack), and a
write of `v` through the reference returned by `peek_mut()` replaces the
head element: on a non-empty stack the next `peek()` returns `v`, the
next `pop()` returns `v`, and the rest of the stack is exactly what
`pop()` would have left anyway. -/
theorem peek_reflects_head {T : Type} (l : Second.List T) (v : T)
    (h : l.toList ≠ []) :
    l.peek = l.toList.head? ∧
    l.peekMut = l.peek ∧
    (l.peekMutWrite v).peek = some v ∧
    (l.peekMutWrite v).pop.1 = some v ∧
    (l.peekMutWrite v).pop.2 = l.pop.2 := by
  obtain ⟨hd⟩ := l
  cases hd with
  | none => simp [Second.List.toList, Second.Link.toList] at h
  | some nd =>
    obtain ⟨e, nx⟩ := nd
    refine ⟨Second.List.peek_eq _, rfl, ?_, ?_, ?_⟩
    · simp [Second.List.peekMutWrite, Second.List.peek, Second.Node.elem]
    · simp [Second.List.peekMutWrite, Second.List.pop, Second.Node.elem]
    · simp [Second.List.peekMutWrite, Second.List.pop, Second.Node.next]

/-- Witness for C7 at the stack `push 1, push 2, push 3` with the write
`42`: `peek` then returns `42` and `pop` returns `42`, as in the
reference behaviour. -/
theorem peek_reflects_head_witness :
    ((Second.List.new Int).push 1 |>.push 2 |>.push 3).toList ≠ [] ∧
    (((Second.List.new Int).push 1 |>.push 2 |>.push 3).peek
        = ((Second.List.new Int).push 1 |>.push 2 |>.push 3).toList.head? ∧
      ((Second.List.new Int).push 1 |>.push 2 |>.push 3).peekMut
        = ((Second.List.new Int).push 1 |>.push 2 |>.push 3).peek ∧
      (((Second.List.new Int).push 1 |>.push 2 |>.push 3).peekMutWrite 42).peek = some 42 ∧
      (((Second.List.new Int).push 1 |>.push 2 |>.push 3).peekMutWrite 42).pop.1 = some 42 ∧
      (((Second.List.new Int).push 1 |>.push 2 |>.push 3).peekMutWrite 42).pop.2
        = ((Second.List.new Int).push 1 |>.push 2 |>.push 3).pop.2) :=
  ⟨by simp [Second.List.toList_push], peek_reflects_head _ 42 (by simp [Second.List.toList_push])⟩

/-- C8: for every iterator variant, exhaustion is absorbing: if the
`n`-th call of `next()` (0-indexed) returned `none`, then so does every
later call, for arbitrary iterator states of all three variants. -/
theorem iterators_exhaustion_absorbing {T : Type}
    (it₁ : Second.IntoIter T) (it₂ : Second.Iter T) (it₃ : Second.IterMut T)
    (n m : Nat) (hnm : n ≤ m)
    (h₁ : it₁.outN n = none) (h₂ : it₂.outN n = none) (h₃ : it₃.outN n = none) :
    it₁.outN m = none ∧ it₂.outN m = none ∧ it₃.outN m = none := by
  obtain ⟨l₁⟩ := it₁
  obtain ⟨lk₂⟩ := it₂
  obtain ⟨lk₃⟩ := it₃
  have e₁ : ∀ k, (Second.IntoIter.mk l₁).outN k = l₁.toList[k]? :=
    fun k => Second.intoIter_outN k l₁
  have e₂ : ∀ k, (Second.Iter.mk lk₂).outN k = (Second.Link.toList lk₂)[k]? :=
    fun k => Second.iter_outN k lk₂
  have e₃ : ∀ k, (Second.IterMut.mk lk₃).outN k = (Second.Link.toList lk₃)[k]? :=
    fun k => Second.iterMut_outN k lk₃
  rw [e₁, List.getElem?_eq_none_iff] at h₁
  rw [e₂, List.getElem?_eq_none_iff] at h₂
  rw [e₃, List.getElem?_eq_none_iff] at h₃
  refine ⟨?_, ?_, ?_⟩
  · rw [e₁]; exact List.getElem?_eq_none (h₁.trans hnm)
  · rw [e₂]; exact List.getElem?_eq_none (h₂.trans hnm)
  · rw [e₃]; exact List.getElem?_eq_none (h₃.trans hnm)

/-- Witness for C8: on the empty stack's iterators the first call already
returns `none`, and so does the fourth. -/
theorem iterators_exhaustion_absorbing_witness :
    ((0 : Nat) ≤ 3 ∧
      (Second.List.new Int).intoIter.outN 0 = none ∧
      (Second.List.new Int).iter.outN 0 = none ∧
      (Second.List.new Int).iterMut.outN 0 = none) ∧
    ((Second.List.new Int).intoIter.outN 3 = none ∧
      (Second.List.new Int).iter.outN 3 = none ∧
      (Second.List.new Int).iterMut.outN 3 = none) :=
  ⟨⟨Nat.zero_le 3, rfl, rfl, rfl⟩,
    iterators_exhaustion_absorbing ((Second.List.new Int).intoIter)
      ((Second.List.new Int).iter) ((Second.List.new Int).iterMut)
      0 3 (Nat.zero_le 3) rfl rfl rfl⟩

namespace Second

theorem second_dropStep_iterate {T : Type} :
    ∀ lk : Link T, dropStep^[lk.toList.length] lk = none
  | none => rfl
  | some (.mk e nx) => by
    have ih := second_dropStep_iterate nx
    rw [Link.toList_some]
    simpa [Function.iterate_succ_apply, dropStep] using ih

theorem second_dropTrace_length {T : Type} :
    ∀ lk : Link T, (dropTrace lk).length = lk.toList.length
  | none => by simp [dropTrace, Link.toList]
  | some (.mk e nx) => by
    have ih := second_dropTrace_length nx
    simp [dropTrace, Link.toList_some, ih]

theorem second_dropTrace_forall {T : Type} :
    ∀ lk : Link T,
      (dropTrace lk).Forall fun nd => nd.next = none ∧ nd.dropDepth = 1
  | none => by simp [dropTrace, List.Forall]
  | some (.mk e nx) => by
    have ih := second_dropTrace_forall nx
    simp only [dropTrace, List.forall_cons]
    exact ⟨⟨rfl, rfl⟩, ih⟩

theorem second_naiveDropDepth_eq_length {T : Type} :
    ∀ lk : Link T, lk.naiveDropDepth = lk.toList.length
  | none => rfl
  | some (.mk e nx) => by
    have ih := second_naiveDropDepth_eq_length nx
    cases nx with
    | none => rfl
    | some n =>
      rw [Link.toList_some]
      simp only [Link.naiveDropDepth, Node.dropDepth] at ih ⊢
      simp [ih]

end Second

namespace First

theorem first_dropStep_iterate :
    ∀ lk : Link, dropStep^[lk.toList.length] lk = .Empty
  | .Empty => rfl
  | .More (.mk e nx) => by
    have ih := first_dropStep_iterate nx
    simpa [Link.toList, Function.iterate_succ_apply, dropStep] using ih

theorem first_dropTrace_length :
    ∀ lk : Link, (dropTrace lk).length = lk.toList.length
  | .Empty => by simp [dropTrace, Link.toList]
  | .More (.mk e nx) => by
    have ih := first_dropTrace_length nx
    simp [dropTrace, Link.toList, ih]

theorem first_dropTrace_forall :
    ∀ lk : Link,
      (dropTrace lk).Forall fun nd => nd.next = .Empty ∧ nd.dropDepth = 1
  | .Empty => by simp [dropTrace, List.Forall]
  | .More (.mk e nx) => by
    have ih := first_dropTrace_forall nx
    simp only [dropTrace, List.forall_cons]
    exact ⟨⟨rfl, rfl⟩, ih⟩

theorem first_naiveDropDepth_eq_length :
    ∀ lk : Link, lk.naiveDropDepth = lk.toList.length
  | .Empty => rfl
  | .More (.mk e nx) => by
    have ih := first_naiveDropDepth_eq_length nx
    cases nx with
    | Empty => rfl
    | More n =>
      simp only [Link.naiveDropDepth, Node.dropDepth, Link.toList] at ih ⊢
      simp [ih]

end First

/-- C1: `Drop` tears down the chain iteratively.  For both variants, the
loop `cur_link = boxed_node.next.take()` reaches the empty link after
exactly `N` iterations on an `N`-node chain (termination for every finite
chain), every node is freed with its link already replaced by the absent
value, so each iteration's own destructor cascade has constant depth `1`
— whereas the automatic recursive teardown the loop replaces would
recurse to depth `N`, one call frame per node. -/
theorem drop_teardown_iterative {T : Type} (l : Second.List T) (fl : First.List) :
    Second.dropStep^[l.toList.length] l.head = none ∧
    (Second.dropTrace l.head).length = l.toList.length ∧
    ((Second.dropTrace l.head).Forall fun nd => nd.next = none ∧ nd.dropDepth = 1) ∧
    Second.Link.naiveDropDepth l.head = l.toList.length ∧
    First.dropStep^[fl.toList.length] fl.head = .Empty ∧
    (First.dropTrace fl.head).length = fl.toList.length ∧
    ((First.dropTrace fl.head).Forall fun nd => nd.next = .Empty ∧ nd.dropDepth = 1) ∧
    First.Link.naiveDropDepth fl.head = fl.toList.length :=
  ⟨Second.second_dropStep_iterate l.head, Second.second_dropTrace_length l.head,
   Second.second_dropTrace_forall l.head, Second.second_naiveDropDepth_eq_length l.head,
   First.first_dropStep_iterate fl.head, First.first_dropTrace_length fl.head,
   First.first_dropTrace_forall fl.head, First.first_naiveDropDepth_eq_length fl.head⟩

namespace First

theorem List.first_toList_push (l : List) (x : Int) :
    (l.push x).toList = x :: l.toList := rfl

theorem List.first_pop_fst (l : List) : l.pop.1 = l.toList.head? := by
  obtain ⟨hd⟩ := l
  cases hd with
  | Empty => rfl
  | More nd => obtain ⟨e, nx⟩ := nd; rfl

theorem List.first_pop_snd_toList (l : List) : l.pop.2.toList = l.toList.tail := by
  obtain ⟨hd⟩ := l
  cases hd with
  | Empty => rfl
  | More nd => obtain ⟨e, nx⟩ := nd; rfl

theorem first_run_eq_stackModel :
    ∀ (ops : Elems (Second.Op Int)) (l : List),
      (l.run ops).1 = (stackModel l.toList ops).1 ∧
      (l.run ops).2.toList = (stackModel l.toList ops).2
  | [], l => ⟨rfl, rfl⟩
  | .push x :: ops, l => by
    have ih := first_run_eq_stackModel ops (l.push x)
    simpa [List.run, stackModel, List.first_toList_push] using ih
  | .pop :: ops, l => by
    have ih := first_run_eq_stackModel ops l.pop.2
    simp only [List.run, stackModel]
    rw [List.first_pop_fst l] at *
    constructor
    · simp [ih.1, List.first_pop_snd_toList]
    · simp [ih.2, List.first_pop_snd_toList]

end First

/-- C9: the non-generic `first.rs` list behaves exactly like the generic
`second.rs` list at element type `i32` (modelled by `Int`; the element
values are only moved, never computed with): for every sequence of
push/pop requests run from a fresh list, the two variants produce
identical pop results and end in states with identical contents. -/
theorem first_refines_second (ops : List (Second.Op Int)) :
    (First.List.new.run ops).1 = ((Second.List.new Int).run ops).1 ∧
    (First.List.new.run ops).2.toList = ((Second.List.new Int).run ops).2.toList := by
  have h1 := First.first_run_eq_stackModel ops First.List.new
  have h2 := Second.run_eq_stackModel ops (Second.List.new Int)
  have e1 : First.List.new.toList = [] := rfl
  have e2 : (Second.List.new Int).toList = [] := rfl
  rw [e1] at h1
  rw [e2] at h2
  exact ⟨h1.1.trans h2.1.symm, h1.2.trans h2.2.symm⟩

namespace Second

theorem intoIter_drain_eq_iter {T : Type} :
    ∀ (n : Nat) (l : List T), (l.intoIter).drain n = (l.iter).drain n
  | 0, _ => rfl
  | n + 1, l => by
    obtain ⟨hd⟩ := l
    cases hd with
    | none =>
      have ih := intoIter_drain_eq_iter n (List.mk (T := T) none)
      simpa [IntoIter.drain, Iter.drain, IntoIter.next, Iter.next, List.pop,
        List.intoIter, List.iter] using ih
    | some nd =>
      obtain ⟨e, nx⟩ := nd
      have ih := intoIter_drain_eq_iter n (List.mk nx)
      simpa [IntoIter.drain, Iter.drain, IntoIter.next, Iter.next, List.pop,
        List.intoIter, List.iter, Node.next] using ih

theorem iter_drain_eq_iterMut {T : Type} :
    ∀ (n : Nat) (l : List T), (l.iter).drain n = (l.iterMut).drain n
  | 0, _ => rfl
  | n + 1, l => by
    obtain ⟨hd⟩ := l
    cases hd with
    | none =>
      have ih := iter_drain_eq_iterMut n (List.mk (T := T) none)
      simpa [Iter.drain, IterMut.drain, Iter.next, IterMut.next,
        List.iter, List.iterMut] using ih
    | some nd =>
      obtain ⟨e, nx⟩ := nd
      have ih := iter_drain_eq_iterMut n (List.mk nx)
      simpa [Iter.drain, IterMut.drain, Iter.next, IterMut.next,
        List.iter, List.iterMut, Node.next] using ih

theorem iterMutSession_noWrites {T : Type} :
    ∀ (n : Nat) (lk : Link T),
      iterMutSession lk (List.replicate n none) = ((IterMut.mk lk).drain n, lk)
  | 0, lk => by simp [iterMutSession, IterMut.drain]
  | n + 1, lk => by
    cases lk with
    | none =>
      have ih := iterMutSession_noWrites n (none : Link T)
      simp [List.replicate_succ, iterMutSession, ih, IterMut.drain, IterMut.next]
    | some nd =>
      obtain ⟨e, nx⟩ := nd
      have ih := iterMutSession_noWrites n nx
      simp [List.replicate_succ, iterMutSession, ih, IterMut.drain, IterMut.next,
        Node.elem, Node.next]

end Second

/-- C10: the three iterators agree on content: driven by their own
`next()` for any number of calls, the owning, borrowing and
mutable-borrowing iterators of the same stack produce identical result
sequences, and a mutable-iteration session in which nothing is written
yields that same sequence and leaves the chain exactly as it was. -/
theorem iterators_agree_on_content {T : Type} (l : Second.List T) (n : Nat) :
    (l.intoIter).drain n = (l.iter).drain n ∧
    (l.iter).drain n = (l.iterMut).drain n ∧
    (Second.iterMutSession l.head (List.replicate n none)).1 = (l.iterMut).drain n ∧
    (Second.iterMutSession l.head (List.replicate n none)).2 = l.head := by
  have h := Second.iterMutSession_noWrites n l.head
  exact ⟨Second.intoIter_drain_eq_iter n l, Second.iter_drain_eq_iterMut n l,
    by rw [h]; rfl, by rw [h]⟩
